import Mathlib

/-!
Shallow embedding of the drive-thru order engine:
menu validation (src/src/menu_validation.py), the order tools
(src/src/tools/order_tools.py), the menu hierarchy builder
(src/parse_menu.py), and the per-session order ledger
(order_state_manager, modelled from the spec; its source file is not in
the repository snapshot, only its tests and callers are).

Machine reals do not appear: rapidfuzz similarity scores are exact
rationals of the form 200*LCS/(len1+len2); they are represented as
unreduced numerator/denominator pairs of naturals, compared by
cross-multiplication.  Strings are ASCII in all menu data; Python
`str.lower`/`str.strip` are embedded for the ASCII range.
-/

/-- Similarity score of rapidfuzz, an exact rational `num/den` kept
unreduced (`den > 0` in every constructed value). -/
structure Sim where
  num : Nat
  den : Nat
deriving DecidableEq

/-- Score `s` is at least the integer cutoff `c` (rapidfuzz `score_cutoff`
acceptance test `c ≤ s`). -/
def simGe (s : Sim) (cutoff : Nat) : Bool :=
  cutoff * s.den ≤ s.num

/-- Strict comparison of two scores by cross-multiplication. -/
def simLt (a b : Sim) : Bool :=
  a.num * b.den < b.num * a.den

/-- One inner step of the LCS dynamic-programming row update. -/
def lcsRowGo (a : Char) : List Char → List Nat → Nat → Nat → List Nat
  | [], _, _, _ => []
  | b :: bs, prev, diag, left =>
    let up := prev.headD 0
    let cur := if a == b then diag + 1 else max left up
    cur :: lcsRowGo a bs prev.tail up cur

/-- Next row of the LCS table after consuming character `a`. -/
def lcsRow (a : Char) (t : List Char) (prev : List Nat) : List Nat :=
  0 :: lcsRowGo a t prev.tail (prev.headD 0) 0

/-- Length of a longest common subsequence, by row dynamic programming
(structural recursion only, so the kernel can evaluate it). -/
def lcsLen (s t : List Char) : Nat :=
  (s.foldl (fun prev a => lcsRow a t prev) (List.replicate (t.length + 1) 0)).getLastD 0

/-- Embedding of rapidfuzz `fuzz.ratio`: the normalized Indel similarity
`100 * (1 - dist/(|q|+|c|)) = 200 * LCS(q,c) / (|q|+|c|)`, as an exact
rational; two empty strings score 100. -/
def fuzzScore (q c : String) : Sim :=
  let m := q.length + c.length
  if m = 0 then ⟨100, 1⟩ else ⟨200 * lcsLen q.data c.data, m⟩

/-- One candidate step of rapidfuzz `extractOne`: keep the running best,
replace it on a strictly better score, admit a first candidate only at or
above the cutoff. -/
def extractStep (query : String) (score_cutoff : Nat) (best : Option (String × Sim))
    (c : String) : Option (String × Sim) :=
  match best with
  | none => if simGe (fuzzScore query c) score_cutoff then some (c, fuzzScore query c) else none
  | some (bc, bs) => if simLt bs (fuzzScore query c) then some (c, fuzzScore query c)
    else some (bc, bs)

/-- Embedding of rapidfuzz `process.extractOne(query, choices,
scorer=fuzz.ratio, score_cutoff=cutoff)`: the best-scoring choice at or
above the cutoff, earliest choice winning ties. -/
def extractOne (query : String) (choices : List String) (score_cutoff : Nat) :
    Option (String × Sim) :=
  choices.foldl (extractStep query score_cutoff) none

/-- ASCII lower-casing of one character (Python `str.lower` on the menu
data, which is ASCII). -/
def lowerChar (c : Char) : Char :=
  if 65 ≤ c.toNat ∧ c.toNat ≤ 90 then Char.ofNat (c.toNat + 32) else c

/-- ASCII lower-casing of a string. -/
def lower (s : String) : String :=
  ⟨s.data.map lowerChar⟩

/-- Python `str.strip()`: drop whitespace from both ends. -/
def pyStrip (s : String) : String :=
  ⟨((s.data.dropWhile Char.isWhitespace).reverse.dropWhile Char.isWhitespace).reverse⟩

/-- Whether `pat` is a prefix of `l` (Boolean, structural). -/
def isPrefixL : List Char → List Char → Bool
  | [], _ => true
  | _ :: _, [] => false
  | a :: as, b :: bs => a == b && isPrefixL as bs

/-- Split `l` at the first occurrence of `pat`: the parts strictly before
and strictly after it (Python `s.split(pat, 1)` when it finds `pat`). -/
def splitFirstL (pat : List Char) : List Char → Option (List Char × List Char)
  | [] => if isPrefixL pat [] then some ([], []) else none
  | c :: cs =>
    if isPrefixL pat (c :: cs) then some ([], (c :: cs).drop pat.length)
    else
      match splitFirstL pat cs with
      | none => none
      | some (a, b) => some (c :: a, b)

/-- Split `l` at the last occurrence of `pat` (Python `s.rsplit(pat, 1)`
when it finds `pat`). -/
def splitLastL (pat : List Char) : List Char → Option (List Char × List Char)
  | [] => if isPrefixL pat [] then some ([], []) else none
  | c :: cs =>
    match splitLastL pat cs with
    | some (a, b) => some (c :: a, b)
    | none =>
      if isPrefixL pat (c :: cs) then some ([], (c :: cs).drop pat.length) else none

/-- Python `pat in s` (substring containment). -/
def containsSub (s pat : String) : Bool :=
  (splitFirstL pat.data s.data).isSome

/-- Python `s.split(pat, 1)` restricted to the found case, on strings. -/
def splitFirstS (s pat : String) : Option (String × String) :=
  (splitFirstL pat.data s.data).map (fun p => (⟨p.1⟩, ⟨p.2⟩))

/-- Python `s.replace(pat, rep)`: replace every occurrence left to right,
non-overlapping; fueled by the input length to stay structural. -/
def replaceAllFuel (pat rep : List Char) : Nat → List Char → List Char
  | _, [] => []
  | 0, l => l
  | fuel + 1, c :: cs =>
    if isPrefixL pat (c :: cs) && !pat.isEmpty then
      rep ++ replaceAllFuel pat rep fuel ((c :: cs).drop pat.length)
    else c :: replaceAllFuel pat rep fuel cs

/-- Python `s.replace(pat, rep)` on strings. -/
def pyReplace (s pat rep : String) : String :=
  ⟨replaceAllFuel pat.data rep.data s.data.length s.data⟩

/-- Python dict write `m[k] = v`: update in place when the key exists
(keeping its position), append otherwise. -/
def pyDictInsert [BEq κ] (m : List (κ × α)) (k : κ) (v : α) : List (κ × α) :=
  if m.any (fun p => p.1 == k) then m.map (fun p => if p.1 == k then (k, v) else p)
  else m ++ [(k, v)]

/-- Python dict built from a pair list by repeated writes (first-occurrence
key order, last-occurrence values). -/
def pyDictOf [BEq κ] (pairs : List (κ × α)) : List (κ × α) :=
  pairs.foldl (fun m p => pyDictInsert m p.1 p.2) []

/-- Python dict read `m[k]`. -/
def pyDictGet [BEq κ] (m : List (κ × α)) (k : κ) : Option α :=
  (m.find? (fun p => p.1 == k)).map (·.2)

/-- Python `defaultdict` access-and-update `m[k] = f(m[k])`, with default
`dflt` for a missing key (the key is inserted at first access). -/
def dictUpd [BEq κ] (m : List (κ × α)) (k : κ) (dflt : α) (f : α → α) : List (κ × α) :=
  if m.any (fun p => p.1 == k) then m.map (fun p => if p.1 == k then (k, f p.2) else p)
  else m ++ [(k, f dflt)]

/-- Duplicate removal keeping first occurrences. -/
def pyDedupStr (l : List String) : List String :=
  l.foldl (fun acc x => if acc.contains x then acc else acc ++ [x]) []

/-- Ordered insertion with respect to a Boolean `le`. -/
def insertBy (le : α → α → Bool) (x : α) : List α → List α
  | [] => [x]
  | y :: ys => if le x y then x :: y :: ys else y :: insertBy le x ys

/-- Insertion sort with respect to a Boolean `le` (embedding of Python
`sorted`; on strings the sorted rearrangement is unique, duplicates being
identical). -/
def sortBy (le : α → α → Bool) (l : List α) : List α :=
  l.foldr (insertBy le) []

/-- Strict lexicographic order on character lists by code point (Python
string `<`). -/
def strLtL : List Char → List Char → Bool
  | [], [] => false
  | [], _ :: _ => true
  | _ :: _, [] => false
  | a :: as, b :: bs =>
    if a.toNat < b.toNat then true
    else if b.toNat < a.toNat then false
    else strLtL as bs

/-- Python string `<`. -/
def strLt (s t : String) : Bool :=
  strLtL s.data t.data

/-- Python string `<=`, as the negation of the reverse strict order. -/
def strLe (s t : String) : Bool :=
  !(strLt t s)

/-- Python `sorted` on strings. -/
def pySorted (l : List String) : List String :=
  sortBy strLe l

/-- Python `sorted(list(set(l)))`: the strictly increasing enumeration of
the distinct members of `l`. -/
def sortedDedup (l : List String) : List String :=
  pySorted (pyDedupStr l)

/-- The quote character, for rendering Python `repr` of strings. -/
def pyQ : String :=
  ⟨[Char.ofNat 39]⟩

/-- Python `repr` of a list of (quote-free ASCII) strings, as interpolated
into the validation error messages. -/
def pyReprStrList (l : List String) : String :=
  "[" ++ String.intercalate ", " (l.map (fun s => pyQ ++ s ++ pyQ)) ++ "]"

/-- Modelled from the spec: `menus/mcdonalds/models.py` is not in the
repository snapshot.  A menu modifier (spec section 3); the opaque unique
id is omitted, no claim mentions it and `validate_modifiers` reads only
the name. -/
structure Modifier where
  modifier_name : String
deriving DecidableEq

/-- Modelled from the spec: `menus/mcdonalds/models.py` is not in the
repository snapshot.  A menu item (spec section 3 and the model tests). -/
structure Item where
  category_name : String
  item_name : String
  available_as_base : Bool
  modifiers : List Modifier
deriving DecidableEq

/-- Modelled from the spec: `menus/mcdonalds/models.py` is not in the
repository snapshot.  The menu: a mapping category name to item list
(spec section 3, keys unique). -/
structure Menu where
  categories : List (String × List Item)
deriving DecidableEq

/-- Menu `get_category`: the item list of the category, `[]` when the
category is unknown. -/
def Menu.get_category (menu : Menu) (category_name : String) : List Item :=
  ((menu.categories.find? (fun p => p.1 == category_name)).map (·.2)).getD []

/-- Result record of `menu_validation.ValidationResult`. -/
structure ValidationResult where
  is_valid : Bool
  matched_item : Option Item := none
  confidence_score : Sim := ⟨0, 1⟩
  error_message : Option String := none
deriving DecidableEq

/-- The `item_name_mapping` dict of `fuzzy_match_item`: item name to item
(last item winning duplicate names, Python dict comprehension). -/
def item_name_mapping (menu_items : List Item) : List (String × Item) :=
  pyDictOf (menu_items.map (fun it => (it.item_name, it)))

/-- The `lowercase_mapping` dict of `fuzzy_match_item`: lower-cased name to
original name. -/
def lowercase_mapping (item_names : List String) : List (String × String) :=
  pyDictOf (item_names.map (fun n => (lower n, n)))

/-- The lower-cased candidate name list searched by `fuzzy_match_item`. -/
def lowercase_names (menu_items : List Item) : List String :=
  (lowercase_mapping ((item_name_mapping menu_items).map (·.1))).map (·.1)

/-- Embedding of `menu_validation.fuzzy_match_item` (src/src/menu_validation.py). -/
def fuzzy_match_item (item_name : String) (menu_items : List Item) (threshold : Nat) :
    ValidationResult :=
  if pyStrip item_name == "" then
    { is_valid := false, error_message := some "Item name cannot be empty" }
  else if menu_items.isEmpty then
    { is_valid := false, error_message := some "Menu is empty" }
  else
    match extractOne (lower item_name) (lowercase_names menu_items) threshold with
    | none =>
      { is_valid := false,
        error_message := some ("No menu item found matching " ++ pyQ ++ item_name ++ pyQ) }
    | some (matched_lowercase, score) =>
      { is_valid := true,
        matched_item := (pyDictGet
            (lowercase_mapping ((item_name_mapping menu_items).map (·.1)))
            matched_lowercase).bind (pyDictGet (item_name_mapping menu_items)),
        confidence_score := score }

/-- Embedding of `menu_validation.validate_item_exists`
(src/src/menu_validation.py); the fuzzy fallback uses the source default
threshold 85, no threshold parameter exists here. -/
def validate_item_exists (item_name : String) (category : String) (menu : Menu) :
    ValidationResult :=
  let category_items := menu.get_category category
  if category_items.isEmpty then
    { is_valid := false,
      error_message := some ("Category " ++ pyQ ++ category ++ pyQ ++ " not found in menu") }
  else
    match category_items.find? (fun it => lower it.item_name == lower item_name) with
    | some it => { is_valid := true, matched_item := some it, confidence_score := ⟨100, 1⟩ }
    | none => fuzzy_match_item item_name category_items 85

/-- Embedding of `menu_validation.validate_modifiers` (src/src/menu_validation.py). -/
def validate_modifiers (item : Item) (requested_modifiers : List String)
    (fuzzy_threshold : Nat) : ValidationResult :=
  if requested_modifiers.isEmpty then
    { is_valid := true, matched_item := some item, confidence_score := ⟨100, 1⟩ }
  else if item.modifiers.isEmpty then
    { is_valid := false,
      error_message := some ("Item " ++ pyQ ++ item.item_name ++ pyQ ++
        " has no modifiers available, but modifiers were requested: " ++
        pyReprStrList requested_modifiers) }
  else
    let available_modifier_names := item.modifiers.map (·.modifier_name)
    let invalid_modifiers := requested_modifiers.foldl
      (fun acc requested =>
        if available_modifier_names.any (fun m => lower m == lower requested) then acc
        else if (extractOne requested available_modifier_names fuzzy_threshold).isSome then acc
        else acc ++ [requested]) []
    if invalid_modifiers.isEmpty then
      { is_valid := true, matched_item := some item, confidence_score := ⟨100, 1⟩ }
    else
      { is_valid := false,
        error_message := some ("Invalid modifiers for " ++ pyQ ++ item.item_name ++ pyQ ++
          ": " ++ pyReprStrList invalid_modifiers ++ ". Available modifiers: " ++
          pyReprStrList available_modifier_names) }

/-- The per-modifier acceptance test iterated by `validate_modifiers`:
a case-insensitive exact match among the declared modifier names, or a
fuzzy match at or above the threshold. -/
def modifierMatches (item : Item) (fuzzy_threshold : Nat) (requested : String) : Bool :=
  (item.modifiers.map (·.modifier_name)).any (fun m => lower m == lower requested) ||
    (extractOne requested (item.modifiers.map (·.modifier_name)) fuzzy_threshold).isSome

/-- Embedding of `menu_validation.validate_order_item`
(src/src/menu_validation.py).  Note: the source forwards
`fuzzy_threshold` only to `validate_modifiers`; `validate_item_exists`
takes no threshold. -/
def validate_order_item (item_name : String) (category : String) (modifiers : List String)
    (menu : Menu) (fuzzy_threshold : Nat) : ValidationResult :=
  let item_result := validate_item_exists item_name category menu
  if item_result.is_valid then
    match item_result.matched_item with
    | some it => validate_modifiers it modifiers fuzzy_threshold
    | none => item_result
  else item_result

/-- Matches of the regex `\(([^)]+)\)` in left-to-right scan order: the
contents of each parenthesised group holding at least one character and no
closing parenthesis (fueled by the input length to stay structural). -/
def parenGroupsFuel : Nat → List Char → List (List Char)
  | _, [] => []
  | 0, _ => []
  | fuel + 1, c :: cs =>
    if c == '(' then
      let grp := cs.takeWhile (fun d => d != ')')
      let rest := cs.drop grp.length
      match rest with
      | ')' :: rest2 =>
        if grp.isEmpty then parenGroupsFuel fuel cs else grp :: parenGroupsFuel fuel rest2
      | _ => parenGroupsFuel fuel cs
    else parenGroupsFuel fuel cs

/-- Python `re.findall(r'\(([^)]+)\)', s)`. -/
def parenGroups (s : String) : List String :=
  (parenGroupsFuel s.data.length s.data).map (fun l => ⟨l⟩)

/-- The size-indicator set of src/parse_menu.py. -/
def SIZE_INDICATORS : List String :=
  ["Small", "Medium", "Large", "Child", "Snack", "Regular Biscuit", "Large Biscuit",
   "4 piece", "6 piece", "10 piece", "20 piece", "40 piece"]

/-- Embedding of `parse_menu.extract_parentheses_info`: the last
parenthesised group (when any), the item with that group removed at its
last occurrence and stripped, and whether the group is a size indicator. -/
def extract_parentheses_info (item : String) : Option String × String × Bool :=
  match (parenGroups item).getLast? with
  | none => (none, item, false)
  | some paren_info =>
    let pat : String := "(" ++ paren_info ++ ")"
    let base_item :=
      match splitLastL pat.data item.data with
      | some (a, _) => pyStrip ⟨a⟩
      | none => pyStrip item
    (some paren_info, base_item, SIZE_INDICATORS.contains paren_info)

/-- Embedding of `parse_menu.find_base_name`: strip the last parenthesised
group, then cut at the first " with " and then at the first " without ";
the size is reported only when the stripped group is a size indicator. -/
def find_base_name (item : String) : String × Option String :=
  let (paren_info, base_name0, is_size) := extract_parentheses_info item
  let base_name1 :=
    match splitFirstS base_name0 " with " with
    | some (l, _) => pyStrip l
    | none => base_name0
  let base_name2 :=
    match splitFirstS base_name1 " without " with
    | some (l, _) => pyStrip l
    | none => base_name1
  (base_name2, if is_size then paren_info else none)

/-- Group record of the first grouping pass of src/parse_menu.py. -/
structure GroupData where
  base : Option String
  variations : List String
deriving DecidableEq

/-- First grouping pass of src/parse_menu.py: group the raw items of one
category by `(base_name, size)`; a string with a " with " clause (or a
" without " clause and no size) is a variation, otherwise the first such
string becomes the group's base. -/
def base_groups (items : List String) : List ((String × Option String) × GroupData) :=
  items.foldl
    (fun m item =>
      let bn := find_base_name item
      if containsSub item " with " || (containsSub item " without " && bn.2 == none) then
        dictUpd m bn ⟨none, []⟩ (fun g => { g with variations := g.variations ++ [item] })
      else
        dictUpd m bn ⟨none, []⟩
          (fun g => if g.base == none then { g with base := some item } else g))
    []

/-- Variation-label derivation of src/parse_menu.py: drop the group's size
annotation from the label when it occurs in it. -/
def stripSizeLabel (size_info : Option String) (variation : String) : String :=
  match size_info with
  | some s =>
    if containsSub variation ("(" ++ s ++ ")") then
      pyStrip (pyReplace variation ("(" ++ s ++ ")") "")
    else variation
  | none => variation

/-- Variation labels contributed by one grouped raw string: the text after
the first " with ", or "without " plus the text after the first
" without ", with a duplicated size annotation stripped. -/
def variationLabels (size_info : Option String) (var_item : String) : List String :=
  match splitFirstS var_item " with " with
  | some (_, v) => [stripSizeLabel size_info v]
  | none =>
    match splitFirstS var_item " without " with
    | some (_, v) => ["without " ++ stripSizeLabel size_info v]
    | none => []

/-- Second pass of src/parse_menu.py: render each group as
`base (size)` or the group's base string, with its deduplicated sorted
variation labels. -/
def category_dict (items : List String) : List (String × List String) :=
  (base_groups items).foldl
    (fun cd kg =>
      let full_base_name :=
        match kg.1.2 with
        | some s => kg.1.1 ++ " (" ++ s ++ ")"
        | none => kg.2.base.getD kg.1.1
      let variations :=
        kg.2.variations.foldl (fun vs v => vs ++ variationLabels kg.1.2 v) []
      pyDictInsert cd full_base_name (sortedDedup variations))
    []

/-- Cross-size reconciliation test of src/parse_menu.py: whether raw string
`item` is a variation of the existing base `base`, and with which label. -/
def crossMatch (item : String) (base : String) : Option String :=
  let ii := extract_parentheses_info item
  let bi := extract_parentheses_info base
  if !(isPrefixL (bi.2.1 ++ " with").data ii.2.1.data) then none
  else
    match splitFirstS item " with " with
    | none => none
    | some (_, variation) =>
      if bi.2.2 && ii.2.2 && bi.1 == ii.1 then
        some (stripSizeLabel bi.1 variation)
      else if !bi.2.2 && !ii.2.2 then some variation
      else none

/-- One step of the cross-size reconciliation pass: an unprocessed raw
string is attached to the first matching base, else becomes a standalone
base with no variations. -/
def crossStep (st : List (String × List String) × List String) (item : String) :
    List (String × List String) × List String :=
  if st.2.contains item then st
  else
    match st.1.findSome? (fun p => (crossMatch item p.1).map (fun v => (p.1, v))) with
    | some (base, variation) =>
      (dictUpd st.1 base [] (fun vs => if vs.contains variation then vs else vs ++ [variation]),
       st.2 ++ [item])
    | none => (pyDictInsert st.1 item [], st.2 ++ [item])

/-- The hierarchy of one category of src/parse_menu.py: grouping, variation
derivation, cross-size reconciliation, per-base sorted variation lists,
base keys sorted. -/
def buildCategory (items : List String) : List (String × List String) :=
  let cd := category_dict items
  let after := items.foldl crossStep (cd, cd.map (·.1))
  sortBy (fun a b => strLe a.1 b.1) (after.1.map (fun p => (p.1, pySorted p.2)))

/-- The full hierarchy of src/parse_menu.py: categories in first-occurrence
input order (Python dict insertion order), each built by `buildCategory`. -/
def buildHierarchy (rows : List (String × String)) :
    List (String × List (String × List String)) :=
  let menu_data := rows.foldl (fun m r => dictUpd m r.1 [] (fun l => l ++ [r.2])) []
  menu_data.map (fun p => (p.1, buildCategory p.2))

/-- Modelled from the spec: `order_state_manager.py` is not in the
repository snapshot (only its tests and callers are).  One order line item
(spec section 3); the opaque unique id and the timestamp are modelled as
naturals drawn from per-ledger counters. -/
structure OrderItem where
  item_id : Nat
  item_name : String
  category : String
  modifiers : List String
  quantity : Int
  timestamp : Nat
deriving DecidableEq

/-- Modelled from the spec: one record of the append-only per-session event
log (spec sections 3 and 6), with the event-specific payload. -/
inductive OrderEvent where
  | add_item (item : OrderItem)
  | remove_item (item_id : Nat)
  | update_quantity (item_id : Nat) (quantity : Int)
  | clear_order
  | complete_order
deriving DecidableEq

/-- Modelled from the spec: the immutable FinalOrder snapshot
(spec section 3). -/
structure FinalOrder where
  session_id : String
  start_time : Nat
  completion_time : Nat
  status : String
  items : List OrderItem
  order_summary : String
  total_items : Int
deriving DecidableEq

/-- Modelled from the spec: the per-session order ledger
(`OrderStateManager`, spec section 4.4).  `log` is the incremental event
log, one entry per written line; `final_order` is the written FinalOrder
snapshot document, `none` until completion. -/
structure OrderStateManager where
  session_id : String
  items : List OrderItem
  log : List OrderEvent
  completed : Bool
  next_id : Nat
  clock : Nat
  start_time : Nat
  final_order : Option FinalOrder
deriving DecidableEq

/-- Failure of a mutating command on an already completed ledger. -/
inductive OrderError where
  | orderAlreadyCompleted
deriving DecidableEq

deriving instance DecidableEq for Except

/-- A fresh ledger for one session: empty order, empty log, open state. -/
def OrderStateManager.new (session_id : String) : OrderStateManager :=
  ⟨session_id, [], [], false, 0, 1, 0, none⟩

/-- Modelled from the spec: `is_empty` query. -/
def OrderStateManager.is_empty (s : OrderStateManager) : Bool :=
  s.items.isEmpty

/-- Modelled from the spec: `get_items` query (the functional embedding
returns the value itself; the source returns copies). -/
def OrderStateManager.get_items (s : OrderStateManager) : List OrderItem :=
  s.items

/-- Modelled from the spec: `get_total_count`, the sum of quantities. -/
def OrderStateManager.get_total_count (s : OrderStateManager) : Int :=
  s.items.foldl (fun n it => n + it.quantity) 0

/-- Modelled from the spec: `get_order_summary`, a comma-joined
`"<quantity> <item_name>"` list in insertion order, `"No items"` when
empty. -/
def OrderStateManager.get_order_summary (s : OrderStateManager) : String :=
  if s.items.isEmpty then "No items"
  else String.intercalate ", "
    (s.items.map (fun it => toString it.quantity ++ " " ++ it.item_name))

/-- Modelled from the spec: `add_item` appends a fresh line item and one
`add_item` event; it fails on a completed ledger. -/
def OrderStateManager.add_item (s : OrderStateManager) (item_name : String)
    (category : String) (modifiers : List String) (quantity : Int) :
    Except OrderError OrderItem × OrderStateManager :=
  if s.completed then (Except.error .orderAlreadyCompleted, s)
  else
    let it : OrderItem := ⟨s.next_id, item_name, category, modifiers, quantity, s.clock⟩
    (Except.ok it,
     { s with
        items := s.items ++ [it]
        log := s.log ++ [.add_item it]
        next_id := s.next_id + 1
        clock := s.clock + 1 })

/-- Modelled from the spec: `remove_item` removes the line item with the
given id and appends one `remove_item` event; it returns false and appends
nothing for an unknown id, and fails on a completed ledger. -/
def OrderStateManager.remove_item (s : OrderStateManager) (item_id : Nat) :
    Except OrderError Bool × OrderStateManager :=
  if s.completed then (Except.error .orderAlreadyCompleted, s)
  else if s.items.any (fun it => it.item_id == item_id) then
    (Except.ok true,
     { s with
        items := s.items.filter (fun it => !(it.item_id == item_id))
        log := s.log ++ [.remove_item item_id]
        clock := s.clock + 1 })
  else (Except.ok false, s)

/-- Modelled from the spec: `update_item_quantity` rejects non-positive
quantities (false, no mutation, no event), updates in place and appends
one `update_quantity` event for a known id, returns false for an unknown
id, and fails on a completed ledger. -/
def OrderStateManager.update_item_quantity (s : OrderStateManager) (item_id : Nat)
    (new_quantity : Int) : Except OrderError Bool × OrderStateManager :=
  if s.completed then (Except.error .orderAlreadyCompleted, s)
  else if new_quantity ≤ 0 then (Except.ok false, s)
  else if s.items.any (fun it => it.item_id == item_id) then
    (Except.ok true,
     { s with
        items := s.items.map
          (fun it => if it.item_id == item_id then { it with quantity := new_quantity } else it)
        log := s.log ++ [.update_quantity item_id new_quantity]
        clock := s.clock + 1 })
  else (Except.ok false, s)

/-- Modelled from the spec: `clear_order` removes all line items and
appends one `clear_order` event; it fails on a completed ledger. -/
def OrderStateManager.clear_order (s : OrderStateManager) :
    Except OrderError Unit × OrderStateManager :=
  if s.completed then (Except.error .orderAlreadyCompleted, s)
  else
    (Except.ok (),
     { s with items := [], log := s.log ++ [.clear_order], clock := s.clock + 1 })

/-- Modelled from the spec: `complete_order` builds the FinalOrder (also on
an empty order), writes the snapshot document, appends one
`complete_order` event and transitions to Completed; re-completing fails
(the stricter option of spec section 9). -/
def OrderStateManager.complete_order (s : OrderStateManager) :
    Except OrderError FinalOrder × OrderStateManager :=
  if s.completed then (Except.error .orderAlreadyCompleted, s)
  else
    let fo : FinalOrder :=
      ⟨s.session_id, s.start_time, s.clock, "completed", s.items,
       s.get_order_summary, s.get_total_count⟩
    (Except.ok fo,
     { s with
        completed := true
        final_order := some fo
        log := s.log ++ [.complete_order]
        clock := s.clock + 1 })

/-- One mutating ledger command, for reasoning about call sequences. -/
inductive Command where
  | add (item_name category : String) (modifiers : List String) (quantity : Int)
  | remove (item_id : Nat)
  | update (item_id : Nat) (quantity : Int)
  | clear
deriving DecidableEq

/-- The value returned by one mutating command. -/
inductive CmdResult where
  | item (it : OrderItem)
  | flag (b : Bool)
  | unit
deriving DecidableEq

/-- Dispatch of one mutating command to the ledger. -/
def stepCommand (s : OrderStateManager) : Command → Except OrderError CmdResult × OrderStateManager
  | .add n c m q => let r := s.add_item n c m q; (r.1.map .item, r.2)
  | .remove i => let r := s.remove_item i; (r.1.map .flag, r.2)
  | .update i q => let r := s.update_item_quantity i q; (r.1.map .flag, r.2)
  | .clear => let r := s.clear_order; (r.1.map (fun _ => .unit), r.2)

/-- Whether a command's result is successful (truthy): a returned item or
unit is truthy, a returned Boolean is its own truth value, an error is
falsy. -/
def truthy : Except OrderError CmdResult → Bool
  | .ok (.item _) => true
  | .ok (.flag b) => b
  | .ok .unit => true
  | .error _ => false

/-- Run a sequence of mutating commands, collecting each call's result. -/
def runCommands (s : OrderStateManager) :
    List Command → List (Except OrderError CmdResult) × OrderStateManager
  | [] => ([], s)
  | c :: cs =>
    let r := stepCommand s c
    let rest := runCommands r.2 cs
    (r.1 :: rest.1, rest.2)

/-- Embedding of `order_tools._strip_category_suffix`
(src/src/tools/order_tools.py). -/
def strip_category_suffix (item_name : String) : String :=
  if item_name == "" then item_name
  else if containsSub item_name "(" && containsSub item_name ")" then
    match splitFirstS item_name "(" with
    | some (a, _) => pyStrip a
    | none => item_name
  else item_name

/-- Embedding of the `complete_order` tool (src/src/tools/order_tools.py):
on an empty order it returns a prompt and touches nothing; otherwise it
completes the ledger and renders the summary response. -/
def complete_order_tool (order_state : OrderStateManager) :
    Except OrderError String × OrderStateManager :=
  if order_state.is_empty then
    (Except.ok "Your order is empty. Would you like to add something?", order_state)
  else
    let r := order_state.complete_order
    match r.1 with
    | .error e => (.error e, r.2)
    | .ok final_order =>
      (.ok ("Order complete! You ordered: " ++ final_order.order_summary ++
        ". Total items: " ++ toString final_order.total_items ++ ". Thank you!"), r.2)

/-- Embedding of the `remove_item_from_order` tool
(src/src/tools/order_tools.py): strip any category suffix, find the last
line item whose name matches case-insensitively, and remove it by id. -/
def remove_item_from_order_tool (order_state : OrderStateManager) (item_name0 : String) :
    Except OrderError String × OrderStateManager :=
  let item_name := strip_category_suffix item_name0
  let items := order_state.get_items
  match items.reverse.find? (fun it => lower it.item_name == lower item_name) with
  | none =>
    (Except.ok ("I don" ++ pyQ ++ "t see " ++ pyQ ++ item_name ++ pyQ ++ " in your order."),
     order_state)
  | some item_to_remove =>
    let r := order_state.remove_item item_to_remove.item_id
    match r.1 with
    | .error e => (.error e, r.2)
    | .ok true => (.ok ("Removed " ++ item_name ++ " from your order."), r.2)
    | .ok false =>
      (.ok ("Couldn" ++ pyQ ++ "t remove " ++ item_name ++ ". Please try again."), r.2)

/-- Concrete one-item menu whose only item fuzzy-scores 80 against the
query "abcde" (used for the threshold-forwarding claims). -/
def itemC1 : Item :=
  ⟨"C", "abcdx", true, []⟩

/-- Menu holding `itemC1` in category "C". -/
def menuC1 : Menu :=
  ⟨[("C", [itemC1])]⟩

/-- Concrete item with two modifiers (modifier-validation claims). -/
def itemC2 : Item :=
  ⟨"C", "Big Mac", true, [⟨"No Pickles"⟩, ⟨"Extra Sauce"⟩]⟩

/-- Concrete item whose name differs from the query only by case. -/
def itemC8 : Item :=
  ⟨"C", "ABCDX", true, []⟩

/-- Menu holding `itemC8` in category "C". -/
def menuC8 : Menu :=
  ⟨[("C", [itemC8])]⟩

/-- A fresh ledger for a concrete session. -/
def sessionA : OrderStateManager :=
  OrderStateManager.new "session-a"

/-- Ledger holding two line items both named "Big Mac (Large)". -/
def ledgerParen : OrderStateManager :=
  (((OrderStateManager.new "session-b").add_item "Big Mac (Large)" "Beef & Pork" [] 1).2.add_item
    "Big Mac (Large)" "Beef & Pork" [] 1).2

/-- Ledger holding two line items both named "Big Mac". -/
def ledgerTwoBigMacs : OrderStateManager :=
  (((OrderStateManager.new "session-c").add_item "Big Mac" "Beef & Pork" [] 1).2.add_item
    "Big Mac" "Beef & Pork" [] 1).2

theorem stepCommand_completed (s : OrderStateManager) (h : s.completed = true)
    (c : Command) :
    stepCommand s c = (Except.error OrderError.orderAlreadyCompleted, s) := by
  cases c <;>
    simp [stepCommand, OrderStateManager.add_item, OrderStateManager.remove_item,
      OrderStateManager.update_item_quantity, OrderStateManager.clear_order, h,
      Except.map]

theorem runCommands_completed (s : OrderStateManager) (h : s.completed = true) :
    ∀ cmds : List Command,
      (∀ r ∈ (runCommands s cmds).1, r = Except.error OrderError.orderAlreadyCompleted) ∧
      (runCommands s cmds).2 = s
  | [] => by simp [runCommands]
  | c :: cs => by
    have hstep := stepCommand_completed s h c
    have ih := runCommands_completed s h cs
    refine ⟨?_, ?_⟩
    · intro r hr
      simp only [runCommands, hstep, List.mem_cons] at hr
      rcases hr with h1 | h2
      · exact h1
      · exact ih.1 r h2
    · simp [runCommands, hstep, ih.2]

/-- C3: after `complete_order` on an open ledger, every subsequent
`add_item`/`remove_item`/`update_item_quantity`/`clear_order` call fails
with `OrderAlreadyCompletedError` and leaves the ledger (its line items
and its event log in particular) unchanged, over any sequence of such
calls. -/
theorem mutations_after_complete_fail (s : OrderStateManager)
    (hopen : s.completed = false) (cmds : List Command) :
    (∀ r ∈ (runCommands (s.complete_order).2 cmds).1,
        r = Except.error OrderError.orderAlreadyCompleted) ∧
      (runCommands (s.complete_order).2 cmds).2 = (s.complete_order).2 ∧
      (runCommands (s.complete_order).2 cmds).2.items = (s.complete_order).2.items ∧
      (runCommands (s.complete_order).2 cmds).2.log = (s.complete_order).2.log := by
  have hcompleted : (s.complete_order).2.completed = true := by
    simp [OrderStateManager.complete_order, hopen]
  have h := runCommands_completed (s.complete_order).2 hcompleted cmds
  exact ⟨h.1, h.2, by rw [h.2], by rw [h.2]⟩

/-- Witness for C3 at a concrete session and command sequence. -/
theorem mutations_after_complete_fail_witness :
    (∀ r ∈ (runCommands (sessionA.complete_order).2
        [Command.add "Fries" "Snacks & Sides" [] 1, Command.clear]).1,
      r = Except.error OrderError.orderAlreadyCompleted) ∧
      (runCommands (sessionA.complete_order).2
        [Command.add "Fries" "Snacks & Sides" [] 1, Command.clear]).2 =
        (sessionA.complete_order).2 ∧
      (runCommands (sessionA.complete_order).2
        [Command.add "Fries" "Snacks & Sides" [] 1, Command.clear]).2.items =
        (sessionA.complete_order).2.items ∧
      (runCommands (sessionA.complete_order).2
        [Command.add "Fries" "Snacks & Sides" [] 1, Command.clear]).2.log =
        (sessionA.complete_order).2.log :=
  mutations_after_complete_fail sessionA rfl
    [Command.add "Fries" "Snacks & Sides" [] 1, Command.clear]

theorem stepCommand_open (s : OrderStateManager) (h : s.completed = false) (c : Command) :
    (stepCommand s c).2.completed = false ∧
      (stepCommand s c).2.log.length =
        s.log.length + (if truthy (stepCommand s c).1 then 1 else 0) := by
  cases c with
  | add a b c' d =>
    simp [stepCommand, OrderStateManager.add_item, h, truthy, Except.map]
  | remove i =>
    by_cases hany : s.items.any (fun it => it.item_id == i) = true <;>
      simp [stepCommand, OrderStateManager.remove_item, h, hany, truthy, Except.map]
  | update i q =>
    by_cases hq : q ≤ 0
    · simp [stepCommand, OrderStateManager.update_item_quantity, h, hq, truthy, Except.map]
    · by_cases hany : s.items.any (fun it => it.item_id == i) = true <;>
        simp [stepCommand, OrderStateManager.update_item_quantity, h, hq, hany, truthy,
          Except.map]
  | clear =>
    simp [stepCommand, OrderStateManager.clear_order, h, truthy, Except.map]

theorem runCommands_log_length (cmds : List Command) :
    ∀ s : OrderStateManager, s.completed = false →
      (runCommands s cmds).2.completed = false ∧
        (runCommands s cmds).2.log.length =
          s.log.length + (runCommands s cmds).1.countP truthy := by
  induction cmds with
  | nil => intro s h; simp [runCommands, h]
  | cons c cs ih =>
    intro s h
    have hstep := stepCommand_open s h c
    have ihs := ih (stepCommand s c).2 hstep.1
    refine ⟨by simpa [runCommands] using ihs.1, ?_⟩
    simp only [runCommands, List.countP_cons, ihs.2, hstep.2]
    by_cases ht : truthy (stepCommand s c).1 = true <;> simp [ht] <;> omega

/-- C4: for every sequence of mutating calls on one fresh session, the
number of entries of the incremental event log equals the number of calls
whose result was truthy; falsy (`false`-returning) calls append
nothing. -/
theorem event_log_counts_successes (session_id : String) (cmds : List Command) :
    (runCommands (OrderStateManager.new session_id) cmds).2.log.length =
      (runCommands (OrderStateManager.new session_id) cmds).1.countP truthy := by
  have h := runCommands_log_length cmds (OrderStateManager.new session_id) rfl
  simpa [OrderStateManager.new] using h.2

/-- C7: completing an empty open ledger succeeds with `total_items = 0`,
no items, summary "No items", and still writes the FinalOrder snapshot. -/
theorem complete_order_empty_ledger (s : OrderStateManager)
    (hopen : s.completed = false) (hempty : s.items = []) :
    ∃ fo : FinalOrder,
      (s.complete_order).1 = Except.ok fo ∧
        fo.total_items = 0 ∧ fo.items = [] ∧ fo.order_summary = "No items" ∧
        (s.complete_order).2.final_order = some fo := by
  refine ⟨⟨s.session_id, s.start_time, s.clock, "completed", s.items,
    s.get_order_summary, s.get_total_count⟩, ?_, ?_, ?_, ?_, ?_⟩ <;>
    simp [OrderStateManager.complete_order, OrderStateManager.get_order_summary,
      OrderStateManager.get_total_count, hopen, hempty]

/-- Witness for C7 at a concrete fresh session. -/
theorem complete_order_empty_ledger_witness :
    ∃ fo : FinalOrder,
      (sessionA.complete_order).1 = Except.ok fo ∧
        fo.total_items = 0 ∧ fo.items = [] ∧ fo.order_summary = "No items" ∧
        (sessionA.complete_order).2.final_order = some fo :=
  complete_order_empty_ledger sessionA rfl rfl

/-- C10: the `complete_order` tool on an empty session returns the
add-something prompt and leaves the ledger untouched (no snapshot written,
no event appended), although the underlying ledger operation would
complete an empty open order. -/
theorem complete_order_tool_empty_prompts (s : OrderStateManager)
    (hempty : s.items = []) :
    (complete_order_tool s).1 =
        Except.ok "Your order is empty. Would you like to add something?" ∧
      (complete_order_tool s).2 = s ∧
      (s.completed = false →
        ∃ fo : FinalOrder, (s.complete_order).1 = Except.ok fo ∧ fo.total_items = 0) := by
  refine ⟨?_, ?_, fun hopen => ?_⟩
  · simp [complete_order_tool, OrderStateManager.is_empty, hempty]
  · simp [complete_order_tool, OrderStateManager.is_empty, hempty]
  · obtain ⟨fo, h1, h2, -⟩ := complete_order_empty_ledger s hopen hempty
    exact ⟨fo, h1, h2⟩

/-- Witness for C10 at a concrete fresh session. -/
theorem complete_order_tool_empty_prompts_witness :
    (complete_order_tool sessionA).1 =
        Except.ok "Your order is empty. Would you like to add something?" ∧
      (complete_order_tool sessionA).2 = sessionA ∧
      (sessionA.completed = false →
        ∃ fo : FinalOrder, (sessionA.complete_order).1 = Except.ok fo ∧ fo.total_items = 0) :=
  complete_order_tool_empty_prompts sessionA rfl

/-- C6: the hierarchy of the category item list
`["Big Mac", "Big Mac with Extra Cheese", "Big Mac (Large)"]` has exactly
the base "Big Mac" with variation list `["Extra Cheese"]` and the sized
base "Big Mac (Large)" with no variations. -/
theorem hierarchy_big_mac_example :
    buildCategory ["Big Mac", "Big Mac with Extra Cheese", "Big Mac (Large)"] =
      [("Big Mac", ["Extra Cheese"]), ("Big Mac (Large)", [])] := by
  decide

theorem foldl_extractStep_some (query : String) (t : Nat) :
    ∀ (cs : List String) (b : String × Sim),
      (cs.foldl (extractStep query t) (some b)).isSome = true
  | [], _ => rfl
  | c :: cs, b => by
    obtain ⟨bc, bs⟩ := b
    by_cases hlt : simLt bs (fuzzScore query c) = true <;>
      simp only [List.foldl_cons, extractStep, hlt, if_true, if_false] <;>
      exact foldl_extractStep_some query t cs _

theorem extractOne_isSome_iff (query : String) (t : Nat) :
    ∀ cs : List String,
      (extractOne query cs t).isSome = true ↔
        ∃ c ∈ cs, simGe (fuzzScore query c) t = true
  | [] => by simp [extractOne]
  | c :: cs => by
    by_cases hc : simGe (fuzzScore query c) t = true
    · have hstep : extractStep query t none c = some (c, fuzzScore query c) := by
        simp [extractStep, hc]
      have hrest := foldl_extractStep_some query t cs (c, fuzzScore query c)
      rw [extractOne, List.foldl_cons, hstep]
      exact ⟨fun _ => ⟨c, List.mem_cons_self c cs, hc⟩, fun _ => hrest⟩
    · have hc' : simGe (fuzzScore query c) t = false := by
        revert hc; cases simGe (fuzzScore query c) t <;> simp
      have hstep : extractStep query t none c = none := by simp [extractStep, hc']
      rw [extractOne, List.foldl_cons, hstep,
        show List.foldl (extractStep query t) none cs = extractOne query cs t from rfl,
        extractOne_isSome_iff query t cs]
      constructor
      · rintro ⟨d, hd, hds⟩; exact ⟨d, List.mem_cons_of_mem c hd, hds⟩
      · rintro ⟨d, hd, hds⟩
        rcases List.mem_cons.mp hd with rfl | hd'
        · exact absurd hds hc
        · exact ⟨d, hd', hds⟩

theorem pyDictInsert_keys [BEq κ] [LawfulBEq κ] (m : List (κ × α)) (k : κ) (v : α) :
    (pyDictInsert m k v).map (·.1) =
      if m.any (fun p => p.1 == k) then m.map (·.1) else m.map (·.1) ++ [k] := by
  unfold pyDictInsert
  split_ifs with h
  · rw [List.map_map]
    refine List.map_congr_left (fun p _ => ?_)
    by_cases hpk : (p.1 == k) = true
    · simp only [Function.comp_apply, hpk, if_true]
      exact (eq_of_beq hpk).symm
    · simp [Function.comp_apply, hpk]
  · simp

theorem mem_keys_pyDictInsert [BEq κ] [LawfulBEq κ] (m : List (κ × α)) (k : κ) (v : α)
    (x : κ) :
    x ∈ (pyDictInsert m k v).map (·.1) ↔ x ∈ m.map (·.1) ∨ x = k := by
  rw [pyDictInsert_keys]
  split_ifs with h
  · constructor
    · exact Or.inl
    · rintro (hx | rfl)
      · exact hx
      · obtain ⟨p, hp, hpk⟩ := List.any_eq_true.mp h
        exact List.mem_map.mpr ⟨p, hp, eq_of_beq hpk⟩
  · simp

theorem mem_keys_pyDictOf_aux [BEq κ] [LawfulBEq κ] :
    ∀ (pairs : List (κ × α)) (acc : List (κ × α)) (x : κ),
      (x ∈ (pairs.foldl (fun m p => pyDictInsert m p.1 p.2) acc).map (·.1) ↔
        x ∈ acc.map (·.1) ∨ x ∈ pairs.map (·.1))
  | [], acc, x => by simp
  | p :: ps, acc, x => by
    rw [List.foldl_cons, mem_keys_pyDictOf_aux ps (pyDictInsert acc p.1 p.2) x,
      mem_keys_pyDictInsert]
    simp only [List.map_cons, List.mem_cons]
    tauto

theorem mem_keys_pyDictOf [BEq κ] [LawfulBEq κ] (pairs : List (κ × α)) (x : κ) :
    x ∈ (pyDictOf pairs).map (·.1) ↔ x ∈ pairs.map (·.1) := by
  have h := mem_keys_pyDictOf_aux pairs [] x
  simpa [pyDictOf] using h

theorem mem_lowercase_names (menu_items : List Item) (x : String) :
    x ∈ lowercase_names menu_items ↔ ∃ it ∈ menu_items, lower it.item_name = x := by
  unfold lowercase_names lowercase_mapping item_name_mapping
  rw [mem_keys_pyDictOf, List.map_map]
  constructor
  · intro hx
    obtain ⟨n, hn, rfl⟩ := List.mem_map.mp hx
    rw [mem_keys_pyDictOf, List.map_map] at hn
    obtain ⟨it, hit, rfl⟩ := List.mem_map.mp hn
    exact ⟨it, hit, rfl⟩
  · rintro ⟨it, hit, rfl⟩
    refine List.mem_map.mpr ⟨it.item_name, ?_, rfl⟩
    rw [mem_keys_pyDictOf, List.map_map]
    exact List.mem_map.mpr ⟨it, hit, rfl⟩

theorem fuzzy_match_item_is_valid_iff (item_name : String) (menu_items : List Item)
    (th : Nat) (hnb : pyStrip item_name ≠ "") (hne : menu_items ≠ []) :
    (fuzzy_match_item item_name menu_items th).is_valid = true ↔
      ∃ it ∈ menu_items,
        simGe (fuzzScore (lower item_name) (lower it.item_name)) th = true := by
  have hnb' : (pyStrip item_name == "") = false := beq_eq_false_iff_ne.mpr hnb
  have hne' : menu_items.isEmpty = false := by
    cases menu_items with
    | nil => exact absurd rfl hne
    | cons a l => rfl
  have hchain : (∃ c ∈ lowercase_names menu_items,
      simGe (fuzzScore (lower item_name) c) th = true) ↔
      ∃ it ∈ menu_items,
        simGe (fuzzScore (lower item_name) (lower it.item_name)) th = true := by
    constructor
    · rintro ⟨c, hc, hP⟩
      obtain ⟨it, hit, rfl⟩ := (mem_lowercase_names menu_items c).mp hc
      exact ⟨it, hit, hP⟩
    · rintro ⟨it, hit, hP⟩
      exact ⟨lower it.item_name,
        (mem_lowercase_names menu_items _).mpr ⟨it, hit, rfl⟩, hP⟩
  rw [← hchain, ← extractOne_isSome_iff (lower item_name) th (lowercase_names menu_items)]
  unfold fuzzy_match_item
  simp only [hnb', hne', Bool.false_eq_true, if_false]
  cases hext : extractOne (lower item_name) (lowercase_names menu_items) th with
  | none => simp [hext]
  | some p => simp [hext]

/-- C1 (amended): inside `validate_order_item` the item-name fuzzy step
ignores the `fuzzy_threshold` argument and accepts the best candidate
exactly when some candidate in the category scores at least the built-in
default 85; when every candidate scores below 85 the item is not resolved
for any threshold argument, 70 included. -/
theorem validate_order_item_fuzzy_uses_85 (item_name category : String)
    (modifiers : List String) (menu : Menu) (fuzzy_threshold : Nat)
    (hne : menu.get_category category ≠ [])
    (hnx : ∀ it ∈ menu.get_category category, lower it.item_name ≠ lower item_name)
    (hnb : pyStrip item_name ≠ "") :
    ((validate_item_exists item_name category menu).is_valid = true ↔
      ∃ it ∈ menu.get_category category,
        simGe (fuzzScore (lower item_name) (lower it.item_name)) 85 = true) ∧
    ((∀ it ∈ menu.get_category category,
        simGe (fuzzScore (lower item_name) (lower it.item_name)) 85 = false) →
      (validate_order_item item_name category modifiers menu fuzzy_threshold).is_valid =
        false) := by
  have hni : (menu.get_category category).isEmpty = false := by
    cases hcat : menu.get_category category with
    | nil => exact absurd hcat hne
    | cons a l => rfl
  have hfind : (menu.get_category category).find?
      (fun it => lower it.item_name == lower item_name) = none := by
    rw [List.find?_eq_none]
    intro it hit
    simpa using hnx it hit
  have hie : validate_item_exists item_name category menu =
      fuzzy_match_item item_name (menu.get_category category) 85 := by
    unfold validate_item_exists
    simp [hni, hfind]
  have hiff := fuzzy_match_item_is_valid_iff item_name (menu.get_category category) 85
    hnb hne
  refine ⟨by rw [hie]; exact hiff, fun hall => ?_⟩
  have hnot : (validate_item_exists item_name category menu).is_valid = false := by
    rw [hie]
    cases hv : (fuzzy_match_item item_name (menu.get_category category) 85).is_valid with
    | false => rfl
    | true =>
      obtain ⟨it, hit, hsc⟩ := hiff.mp hv
      rw [hall it hit] at hsc
      exact absurd hsc (by simp)
  unfold validate_order_item
  simp [hnot]

/-- Witness for C1 (amended) at a concrete one-item menu whose only
candidate scores 80. -/
theorem validate_order_item_fuzzy_uses_85_witness :
    ((validate_item_exists "abcde" "C" menuC1).is_valid = true ↔
      ∃ it ∈ menuC1.get_category "C",
        simGe (fuzzScore (lower "abcde") (lower it.item_name)) 85 = true) ∧
    ((∀ it ∈ menuC1.get_category "C",
        simGe (fuzzScore (lower "abcde") (lower it.item_name)) 85 = false) →
      (validate_order_item "abcde" "C" [] menuC1 70).is_valid = false) :=
  validate_order_item_fuzzy_uses_85 "abcde" "C" [] menuC1 70 (by decide) (by decide)
    (by decide)

/-- C1 counterexample: the best candidate for "abcde" scores exactly 80,
which is at least 70 and below 85, yet `validate_order_item` called with
`fuzzy_threshold = 70` does not resolve the item, against the claimed
acceptance "iff the best score is at least t" at t = 70. -/
theorem validate_order_item_threshold_counterexample :
    simGe (fuzzScore (lower "abcde") (lower "abcdx")) 70 = true ∧
      simGe (fuzzScore (lower "abcde") (lower "abcdx")) 85 = false ∧
      (validate_order_item "abcde" "C" [] menuC1 70).is_valid = false := by
  decide

/-- C8: `validate_item_exists` returns the first case-insensitive exact
match with confidence exactly 100 (independent of any fuzzy search), and
falls back to fuzzy matching at the default threshold 85 over the
category's items exactly when no case-insensitive exact match exists. -/
theorem validate_item_exists_exact_first (item_name category : String) (menu : Menu) :
    ((∃ it ∈ menu.get_category category, lower it.item_name = lower item_name) →
      ∃ it ∈ menu.get_category category,
        lower it.item_name = lower item_name ∧
          validate_item_exists item_name category menu =
            { is_valid := true, matched_item := some it, confidence_score := ⟨100, 1⟩ }) ∧
    ((menu.get_category category).isEmpty = false →
      (∀ it ∈ menu.get_category category, lower it.item_name ≠ lower item_name) →
      validate_item_exists item_name category menu =
        fuzzy_match_item item_name (menu.get_category category) 85) := by
  constructor
  · intro hex
    have hsome : ((menu.get_category category).find?
        (fun it => lower it.item_name == lower item_name)).isSome = true := by
      rw [List.find?_isSome]
      obtain ⟨it, hit, heq⟩ := hex
      exact ⟨it, hit, by simp [heq]⟩
    obtain ⟨it, hfind⟩ := Option.isSome_iff_exists.mp hsome
    have hni : (menu.get_category category).isEmpty = false := by
      cases hcat : menu.get_category category with
      | nil => rw [hcat] at hfind; simp [List.find?] at hfind
      | cons a l => rfl
    refine ⟨it, List.mem_of_find?_eq_some hfind, by simpa using List.find?_some hfind, ?_⟩
    unfold validate_item_exists
    simp [hni, hfind]
  · intro hni hnx
    have hfind : (menu.get_category category).find?
        (fun it => lower it.item_name == lower item_name) = none := by
      rw [List.find?_eq_none]
      intro it hit
      simpa using hnx it hit
    unfold validate_item_exists
    simp [hni, hfind]

/-- Witness for C8 at a menu whose item name matches the query up to
case. -/
theorem validate_item_exists_exact_first_witness :
    ∃ it ∈ menuC8.get_category "C",
      lower it.item_name = lower "abcdx" ∧
        validate_item_exists "abcdx" "C" menuC8 =
          { is_valid := true, matched_item := some it, confidence_score := ⟨100, 1⟩ } :=
  (validate_item_exists_exact_first "abcdx" "C" menuC8).1 ⟨itemC8, by decide, by decide⟩

theorem foldl_push_filter (A B : α → Bool) :
    ∀ (l acc : List α),
      l.foldl (fun a x => if A x then a else if B x then a else a ++ [x]) acc =
        acc ++ l.filter (fun x => !(A x || B x))
  | [], acc => by simp
  | x :: l, acc => by
    by_cases hA : A x = true
    · simp [hA, foldl_push_filter A B l acc]
    · by_cases hB : B x = true
      · simp [hA, hB, foldl_push_filter A B l acc]
      · simp [hA, hB, foldl_push_filter A B l (acc ++ [x])]

theorem modifierMatches_iff (item : Item) (th : Nat) (r : String) :
    modifierMatches item th r = true ↔
      ∃ m ∈ item.modifiers.map (·.modifier_name),
        lower m = lower r ∨ simGe (fuzzScore r m) th = true := by
  unfold modifierMatches
  rw [Bool.or_eq_true, List.any_eq_true,
    extractOne_isSome_iff r th (item.modifiers.map (·.modifier_name))]
  constructor
  · rintro (⟨m, hm, hb⟩ | ⟨m, hm, hs⟩)
    · exact ⟨m, hm, Or.inl (by simpa using hb)⟩
    · exact ⟨m, hm, Or.inr hs⟩
  · rintro ⟨m, hm, h | h⟩
    · exact Or.inl ⟨m, hm, by simp [h]⟩
    · exact Or.inr ⟨m, hm, h⟩

/-- C2: modifier validation — an empty request list is valid; a non-empty
request against an item with no declared modifiers is invalid; otherwise
the result is valid exactly when every requested modifier matches some
declared modifier name (case-insensitively exactly, or fuzzily at or
above the threshold), and an invalid result's message names exactly the
full list of unmatched modifier names. -/
theorem validate_modifiers_spec (item : Item) (requested_modifiers : List String)
    (fuzzy_threshold : Nat) :
    (requested_modifiers = [] →
      validate_modifiers item requested_modifiers fuzzy_threshold =
        { is_valid := true, matched_item := some item, confidence_score := ⟨100, 1⟩ }) ∧
    (requested_modifiers ≠ [] → item.modifiers = [] →
      (validate_modifiers item requested_modifiers fuzzy_threshold).is_valid = false) ∧
    (requested_modifiers ≠ [] → item.modifiers ≠ [] →
      ((validate_modifiers item requested_modifiers fuzzy_threshold).is_valid = true ↔
        ∀ r ∈ requested_modifiers, ∃ m ∈ item.modifiers.map (·.modifier_name),
          lower m = lower r ∨ simGe (fuzzScore r m) fuzzy_threshold = true) ∧
      ((validate_modifiers item requested_modifiers fuzzy_threshold).is_valid = false →
        (validate_modifiers item requested_modifiers fuzzy_threshold).error_message =
          some ("Invalid modifiers for " ++ pyQ ++ item.item_name ++ pyQ ++ ": " ++
            pyReprStrList (requested_modifiers.filter
              (fun r => !(modifierMatches item fuzzy_threshold r))) ++
            ". Available modifiers: " ++
            pyReprStrList (item.modifiers.map (·.modifier_name))))) := by
  refine ⟨fun h => ?_, fun hreq hmods => ?_, fun hreq hmods => ?_⟩
  · subst h; rfl
  · have h1 : requested_modifiers.isEmpty = false := by
      cases requested_modifiers with
      | nil => exact absurd rfl hreq
      | cons a l => rfl
    unfold validate_modifiers
    simp [h1, hmods]
  · have h1 : requested_modifiers.isEmpty = false := by
      cases requested_modifiers with
      | nil => exact absurd rfl hreq
      | cons a l => rfl
    have h2 : item.modifiers.isEmpty = false := by
      cases hm : item.modifiers with
      | nil => exact absurd hm hmods
      | cons a l => rfl
    have hfold := foldl_push_filter
      (fun r => (item.modifiers.map (·.modifier_name)).any (fun m => lower m == lower r))
      (fun r => (extractOne r (item.modifiers.map (·.modifier_name))
        fuzzy_threshold).isSome)
      requested_modifiers []
    have hkey : validate_modifiers item requested_modifiers fuzzy_threshold =
        (if (requested_modifiers.filter
            (fun r => !(modifierMatches item fuzzy_threshold r))).isEmpty then
          { is_valid := true, matched_item := some item, confidence_score := ⟨100, 1⟩ }
        else
          { is_valid := false,
            error_message := some ("Invalid modifiers for " ++ pyQ ++ item.item_name ++
              pyQ ++ ": " ++
              pyReprStrList (requested_modifiers.filter
                (fun r => !(modifierMatches item fuzzy_threshold r))) ++
              ". Available modifiers: " ++
              pyReprStrList (item.modifiers.map (·.modifier_name))) }) := by
      unfold validate_modifiers
      simp only [h1, h2, Bool.false_eq_true, if_false]
      rw [hfold, List.nil_append]
      rfl
    constructor
    · rw [hkey]
      by_cases hf : requested_modifiers.filter
          (fun r => !(modifierMatches item fuzzy_threshold r)) = []
      · rw [hf]
        simp only [List.isEmpty_nil, if_true]
        constructor
        · intro _ r hr
          have hmr : modifierMatches item fuzzy_threshold r = true := by
            have := List.filter_eq_nil.mp hf r hr
            revert this
            cases modifierMatches item fuzzy_threshold r <;> simp
          exact (modifierMatches_iff item fuzzy_threshold r).mp hmr
        · intro _; trivial
      · have hfe : (requested_modifiers.filter
            (fun r => !(modifierMatches item fuzzy_threshold r))).isEmpty = false := by
          cases hc : requested_modifiers.filter
              (fun r => !(modifierMatches item fuzzy_threshold r)) with
          | nil => exact absurd hc hf
          | cons a l => rfl
        rw [hfe]
        simp only [Bool.false_eq_true, if_false]
        constructor
        · intro h; exact absurd h (by simp)
        · intro hall
          exfalso
          refine hf (List.filter_eq_nil.mpr (fun r hr => ?_))
          have hmr : modifierMatches item fuzzy_threshold r = true :=
            (modifierMatches_iff item fuzzy_threshold r).mpr (hall r hr)
          simp [hmr]
    · intro hinv
      rw [hkey] at hinv ⊢
      by_cases hf : (requested_modifiers.filter
          (fun r => !(modifierMatches item fuzzy_threshold r))).isEmpty = true
      · rw [hf] at hinv
        simp at hinv
      · have hfe : (requested_modifiers.filter
            (fun r => !(modifierMatches item fuzzy_threshold r))).isEmpty = false := by
          revert hf
          cases (requested_modifiers.filter
              (fun r => !(modifierMatches item fuzzy_threshold r))).isEmpty <;> simp
        rw [hfe]
        rfl

/-- Witness for C2: requesting an unavailable modifier "zz" together with
the exact modifier "No Pickles" yields an invalid result whose message
names exactly the unmatched list. -/
theorem validate_modifiers_spec_witness :
    (validate_modifiers itemC2 ["No Pickles", "zz"] 85).error_message =
      some ("Invalid modifiers for " ++ pyQ ++ itemC2.item_name ++ pyQ ++ ": " ++
        pyReprStrList (["No Pickles", "zz"].filter
          (fun r => !(modifierMatches itemC2 85 r))) ++
        ". Available modifiers: " ++
        pyReprStrList (itemC2.modifiers.map (·.modifier_name))) :=
  ((validate_modifiers_spec itemC2 ["No Pickles", "zz"] 85).2.2 (by decide)
    (by decide)).2 (by decide)

theorem find?_eq_some_split (p : α → Bool) :
    ∀ (l : List α) (a : α), l.find? p = some a →
      ∃ l₁ l₂, l = l₁ ++ a :: l₂ ∧ ∀ x ∈ l₁, p x = false
  | [], a => by intro h; simp [List.find?] at h
  | x :: l, a => by
    intro h
    by_cases hx : p x = true
    · rw [List.find?_cons_of_pos _ hx] at h
      obtain rfl : x = a := by injection h
      exact ⟨[], l, rfl, by simp⟩
    · have hx' : p x = false := by revert hx; cases p x <;> simp
      rw [List.find?_cons_of_neg _ (by simp [hx'])] at h
      obtain ⟨l₁, l₂, rfl, hall⟩ := find?_eq_some_split p l a h
      refine ⟨x :: l₁, l₂, rfl, ?_⟩
      intro y hy
      rcases List.mem_cons.mp hy with rfl | hy'
      · exact hx'
      · exact hall y hy'

/-- C9 (amended): the `remove_item_from_order` tool first strips any
parenthetical category suffix from the requested name; against the
stripped name it removes exactly the most recently added line item whose
name matches case-insensitively (appending one `remove_item` event and
leaving every other line item in place), and when no line item matches the
stripped name it removes nothing and reports the item as not in the
order. -/
theorem remove_tool_removes_last_match (s : OrderStateManager) (name : String)
    (hopen : s.completed = false)
    (hids : (s.items.map (·.item_id)).Nodup) :
    ((∀ it ∈ s.items, lower it.item_name ≠ lower (strip_category_suffix name)) →
      remove_item_from_order_tool s name =
        (Except.ok ("I don" ++ pyQ ++ "t see " ++ pyQ ++ strip_category_suffix name ++
          pyQ ++ " in your order."), s)) ∧
    ((∃ it ∈ s.items, lower it.item_name = lower (strip_category_suffix name)) →
      ∃ it l₁ l₂,
        s.items = l₁ ++ it :: l₂ ∧
          lower it.item_name = lower (strip_category_suffix name) ∧
          (∀ x ∈ l₂, lower x.item_name ≠ lower (strip_category_suffix name)) ∧
          remove_item_from_order_tool s name =
            (Except.ok ("Removed " ++ strip_category_suffix name ++ " from your order."),
             { s with
                items := l₁ ++ l₂
                log := s.log ++ [OrderEvent.remove_item it.item_id]
                clock := s.clock + 1 })) := by
  constructor
  · intro hnone
    have hfind : s.items.reverse.find?
        (fun it => lower it.item_name == lower (strip_category_suffix name)) = none := by
      rw [List.find?_eq_none]
      intro it hit
      simpa using hnone it (List.mem_reverse.mp hit)
    unfold remove_item_from_order_tool OrderStateManager.get_items
    simp only [hfind]
  · intro hex
    have hsome : (s.items.reverse.find?
        (fun it => lower it.item_name == lower (strip_category_suffix name))).isSome =
        true := by
      rw [List.find?_isSome]
      obtain ⟨it, hit, heq⟩ := hex
      exact ⟨it, List.mem_reverse.mpr hit, by simp [heq]⟩
    obtain ⟨it, hfind⟩ := Option.isSome_iff_exists.mp hsome
    obtain ⟨r₁, r₂, hrev, hall⟩ := find?_eq_some_split _ s.items.reverse it hfind
    have hitems : s.items = r₂.reverse ++ it :: r₁.reverse := by
      calc s.items = s.items.reverse.reverse := (List.reverse_reverse _).symm
        _ = (r₁ ++ it :: r₂).reverse := by rw [hrev]
        _ = r₂.reverse ++ it :: r₁.reverse := by simp
    have hmem : it ∈ s.items := by rw [hitems]; simp
    have hany : s.items.any (fun x => x.item_id == it.item_id) = true :=
      List.any_eq_true.mpr ⟨it, hmem, by simp⟩
    have hids' := hids
    rw [hitems, List.map_append, List.map_cons, List.nodup_append] at hids'
    obtain ⟨hnod1, hnod2, hdisj⟩ := hids'
    have hid_l1 : ∀ x ∈ r₂.reverse, (!(x.item_id == it.item_id)) = true := by
      intro x hx
      have hne : x.item_id ≠ it.item_id := by
        intro hcontra
        exact hdisj (List.mem_map.mpr ⟨x, hx, hcontra⟩) (List.mem_cons_self _ _)
      simp [hne]
    have hid_l2 : ∀ x ∈ r₁.reverse, (!(x.item_id == it.item_id)) = true := by
      intro x hx
      have hne : x.item_id ≠ it.item_id := by
        intro hcontra
        have := List.nodup_cons.mp hnod2
        exact this.1 (hcontra ▸ List.mem_map.mpr ⟨x, hx, rfl⟩)
      simp [hne]
    have hfilter : s.items.filter (fun x => !(x.item_id == it.item_id)) =
        r₂.reverse ++ r₁.reverse := by
      rw [hitems, List.filter_append, List.filter_cons]
      rw [List.filter_eq_self.mpr hid_l1, List.filter_eq_self.mpr hid_l2]
      simp
    refine ⟨it, r₂.reverse, r₁.reverse, hitems, by simpa using List.find?_some hfind,
      ?_, ?_⟩
    · intro x hx
      have := hall x (List.mem_reverse.mp (by simpa using hx))
      simpa using this
    · have hrm : s.remove_item it.item_id =
          (Except.ok true,
           { s with
              items := s.items.filter (fun x => !(x.item_id == it.item_id))
              log := s.log ++ [OrderEvent.remove_item it.item_id]
              clock := s.clock + 1 }) := by
        unfold OrderStateManager.remove_item
        simp [hopen, hany]
      unfold remove_item_from_order_tool OrderStateManager.get_items
      simp only [hfind, hrm, hfilter]

/-- Witness for C9 (amended): two line items named "Big Mac"; requesting
"big mac" removes the most recently added one. -/
theorem remove_tool_removes_last_match_witness :
    ∃ it l₁ l₂,
      ledgerTwoBigMacs.items = l₁ ++ it :: l₂ ∧
        lower it.item_name = lower (strip_category_suffix "big mac") ∧
        (∀ x ∈ l₂, lower x.item_name ≠ lower (strip_category_suffix "big mac")) ∧
        remove_item_from_order_tool ledgerTwoBigMacs "big mac" =
          (Except.ok ("Removed " ++ strip_category_suffix "big mac" ++
            " from your order."),
           { ledgerTwoBigMacs with
              items := l₁ ++ l₂
              log := ledgerTwoBigMacs.log ++ [OrderEvent.remove_item it.item_id]
              clock := ledgerTwoBigMacs.clock + 1 }) :=
  (remove_tool_removes_last_match ledgerTwoBigMacs "big mac" (by decide) (by decide)).2
    ⟨⟨0, "Big Mac", "Beef & Pork", [], 1, 1⟩, by decide, by decide⟩

/-- C9 counterexample: with two line items both named "Big Mac (Large)"
and the request "Big Mac (Large)", every line item's name equals the
requested name ignoring case, yet the tool removes nothing and reports the
item (with its suffix stripped) as not in the order. -/
theorem remove_tool_paren_counterexample :
    ledgerParen.items.map (fun it => lower it.item_name) =
        [lower "Big Mac (Large)", lower "Big Mac (Large)"] ∧
      (remove_item_from_order_tool ledgerParen "Big Mac (Large)").2 = ledgerParen ∧
      (remove_item_from_order_tool ledgerParen "Big Mac (Large)").1 =
        Except.ok ("I don" ++ pyQ ++ "t see " ++ pyQ ++ "Big Mac" ++ pyQ ++
          " in your order.") := by
  decide

theorem strLtL_asymm : ∀ a b : List Char, strLtL a b = true → strLtL b a = false
  | [], [] => by simp [strLtL]
  | [], _ :: _ => by intro _; simp [strLtL]
  | _ :: _, [] => by intro h; simp [strLtL] at h
  | a :: as, b :: bs => by
    intro h
    unfold strLtL at h ⊢
    by_cases h1 : a.toNat < b.toNat
    · have h2 : ¬ b.toNat < a.toNat := by omega
      rw [if_neg h2, if_pos h1]
    · by_cases h2 : b.toNat < a.toNat
      · rw [if_neg h1, if_pos h2] at h
        exact absurd h (by simp)
      · rw [if_neg h1, if_neg h2] at h
        rw [if_neg h2, if_neg h1]
        exact strLtL_asymm as bs h

theorem strLtL_not_trans : ∀ (c a b : List Char),
    strLtL b a = false → strLtL c b = false → strLtL c a = false
  | [], a, b => by
    intro h1 h2
    cases a with
    | nil => rfl
    | cons x xs =>
      cases b with
      | nil => simp [strLtL] at h1
      | cons y ys => simp [strLtL] at h2
  | z :: zs, a, b => by
    intro h1 h2
    cases a with
    | nil => rfl
    | cons x xs =>
      cases b with
      | nil => simp [strLtL] at h1
      | cons y ys =>
        unfold strLtL at h1 h2 ⊢
        by_cases hyx : y.toNat < x.toNat
        · rw [if_pos hyx] at h1
          exact absurd h1 (by simp)
        · by_cases hzy : z.toNat < y.toNat
          · rw [if_pos hzy] at h2
            exact absurd h2 (by simp)
          · have hzx : ¬ z.toNat < x.toNat := by omega
            rw [if_neg hzx]
            by_cases hxz : x.toNat < z.toNat
            · rw [if_pos hxz]
            · rw [if_neg hxz]
              have hxy : ¬ x.toNat < y.toNat := by omega
              have hyz : ¬ y.toNat < z.toNat := by omega
              rw [if_neg hyx, if_neg hxy] at h1
              rw [if_neg hzy, if_neg hyz] at h2
              exact strLtL_not_trans zs xs ys h1 h2

theorem strLe_total (a b : String) : strLe a b = true ∨ strLe b a = true := by
  unfold strLe strLt
  by_cases h1 : strLtL b.data a.data = true
  · right
    have h2 := strLtL_asymm b.data a.data h1
    simp [h2]
  · left
    revert h1
    cases strLtL b.data a.data <;> simp

theorem strLe_trans (a b c : String) :
    strLe a b = true → strLe b c = true → strLe a c = true := by
  unfold strLe strLt
  intro h1 h2
  simp only [Bool.not_eq_true'] at h1 h2 ⊢
  exact strLtL_not_trans c.data a.data b.data h1 h2

theorem mem_insertBy (le : α → α → Bool) (x : α) :
    ∀ (l : List α) (a : α), a ∈ insertBy le x l ↔ a = x ∨ a ∈ l
  | [], a => by simp [insertBy]
  | y :: ys, a => by
    unfold insertBy
    by_cases h : le x y = true
    · rw [if_pos h]
      simp
    · rw [if_neg h]
      simp only [List.mem_cons, mem_insertBy le x ys a]
      tauto

theorem perm_insertBy (le : α → α → Bool) (x : α) :
    ∀ l : List α, List.Perm (insertBy le x l) (x :: l)
  | [] => List.Perm.refl _
  | y :: ys => by
    unfold insertBy
    by_cases h : le x y = true
    · rw [if_pos h]
    · rw [if_neg h]
      exact (List.Perm.cons y (perm_insertBy le x ys)).trans (List.Perm.swap x y ys)

theorem pairwise_insertBy (le : α → α → Bool)
    (htot : ∀ a b, le a b = true ∨ le b a = true)
    (htrans : ∀ a b c, le a b = true → le b c = true → le a c = true) (x : α) :
    ∀ l : List α, l.Pairwise (fun a b => le a b = true) →
      (insertBy le x l).Pairwise (fun a b => le a b = true)
  | [], _ => by simp [insertBy]
  | y :: ys, h => by
    obtain ⟨hy, hys⟩ := List.pairwise_cons.mp h
    unfold insertBy
    by_cases hxy : le x y = true
    · rw [if_pos hxy]
      refine List.Pairwise.cons ?_ h
      intro z hz
      rcases List.mem_cons.mp hz with rfl | hz'
      · exact hxy
      · exact htrans x y z hxy (hy z hz')
    · rw [if_neg hxy]
      have hyx : le y x = true := (htot x y).resolve_left hxy
      refine List.Pairwise.cons ?_ (pairwise_insertBy le htot htrans x ys hys)
      intro z hz
      rcases (mem_insertBy le x ys z).mp hz with rfl | hz'
      · exact hyx
      · exact hy z hz'

theorem pairwise_sortBy (le : α → α → Bool)
    (htot : ∀ a b, le a b = true ∨ le b a = true)
    (htrans : ∀ a b c, le a b = true → le b c = true → le a c = true) :
    ∀ l : List α, (sortBy le l).Pairwise (fun a b => le a b = true)
  | [] => by simp [sortBy]
  | x :: l =>
    pairwise_insertBy le htot htrans x (sortBy le l) (pairwise_sortBy le htot htrans l)

theorem perm_sortBy (le : α → α → Bool) : ∀ l : List α, List.Perm (sortBy le l) l
  | [] => List.Perm.refl _
  | x :: l => (perm_insertBy le x (sortBy le l)).trans (List.Perm.cons x (perm_sortBy le l))

theorem contains_eq_true_iff_mem (l : List String) (x : String) :
    l.contains x = true ↔ x ∈ l :=
  ⟨List.mem_of_elem_eq_true, List.elem_eq_true_of_mem⟩

theorem nodup_append_singleton (l : List String) (x : String) (h : l.Nodup)
    (hx : x ∉ l) : (l ++ [x]).Nodup := by
  rw [List.nodup_append]
  refine ⟨h, List.nodup_singleton x, ?_⟩
  intro a ha hb
  rw [List.mem_singleton] at hb
  subst hb
  exact hx ha

theorem nodup_pyDedupStr_aux :
    ∀ (l acc : List String), acc.Nodup →
      (l.foldl (fun acc x => if acc.contains x then acc else acc ++ [x]) acc).Nodup
  | [], _, h => h
  | x :: l, acc, h => by
    simp only [List.foldl_cons]
    by_cases hc : x ∈ acc
    · rw [if_pos ((contains_eq_true_iff_mem acc x).mpr hc)]
      exact nodup_pyDedupStr_aux l acc h
    · rw [if_neg (fun hcc => hc ((contains_eq_true_iff_mem acc x).mp hcc))]
      exact nodup_pyDedupStr_aux l (acc ++ [x]) (nodup_append_singleton acc x h hc)

theorem nodup_pyDedupStr (l : List String) : (pyDedupStr l).Nodup :=
  nodup_pyDedupStr_aux l [] List.nodup_nil

theorem nodup_pySorted (l : List String) (h : l.Nodup) : (pySorted l).Nodup :=
  (perm_sortBy strLe l).symm.nodup h

theorem nodup_sortedDedup (l : List String) : (sortedDedup l).Nodup :=
  nodup_pySorted (pyDedupStr l) (nodup_pyDedupStr l)

theorem valuesP_pyDictInsert [BEq κ] (P : α → Prop) (m : List (κ × α)) (k : κ) (v : α)
    (hm : ∀ p ∈ m, P p.2) (hv : P v) : ∀ p ∈ pyDictInsert m k v, P p.2 := by
  unfold pyDictInsert
  split_ifs with h
  · intro p hp
    obtain ⟨q, hq, rfl⟩ := List.mem_map.mp hp
    by_cases hqk : (q.1 == k) = true
    · simpa [hqk] using hv
    · simpa [hqk] using hm q hq
  · intro p hp
    rcases List.mem_append.mp hp with hp' | hp'
    · exact hm p hp'
    · rw [List.mem_singleton] at hp'
      subst hp'
      exact hv

theorem valuesP_dictUpd [BEq κ] (P : α → Prop) (m : List (κ × α)) (k : κ) (d : α)
    (f : α → α) (hm : ∀ p ∈ m, P p.2) (hf : ∀ v, P v → P (f v)) (hfd : P (f d)) :
    ∀ p ∈ dictUpd m k d f, P p.2 := by
  unfold dictUpd
  split_ifs with h
  · intro p hp
    obtain ⟨q, hq, rfl⟩ := List.mem_map.mp hp
    by_cases hqk : (q.1 == k) = true
    · simpa [hqk] using hf q.2 (hm q hq)
    · simpa [hqk] using hm q hq
  · intro p hp
    rcases List.mem_append.mp hp with hp' | hp'
    · exact hm p hp'
    · rw [List.mem_singleton] at hp'
      subst hp'
      exact hfd

theorem guardedAppend_nodup (variation : String) (v : List String) (hv : v.Nodup) :
    (if v.contains variation then v else v ++ [variation]).Nodup := by
  by_cases hcv : variation ∈ v
  · rw [if_pos ((contains_eq_true_iff_mem v variation).mpr hcv)]
    exact hv
  · rw [if_neg (fun hcc => hcv ((contains_eq_true_iff_mem v variation).mp hcc))]
    exact nodup_append_singleton v variation hv hcv

theorem valuesNodup_crossStep (st : List (String × List String) × List String)
    (h : ∀ p ∈ st.1, p.2.Nodup) (item : String) :
    ∀ p ∈ (crossStep st item).1, p.2.Nodup := by
  unfold crossStep
  by_cases hc : st.2.contains item = true
  · rw [if_pos hc]
    exact h
  · rw [if_neg hc]
    cases hfs : st.1.findSome? (fun p => (crossMatch item p.1).map (fun v => (p.1, v))) with
    | none =>
      exact valuesP_pyDictInsert _ st.1 item [] h List.nodup_nil
    | some bv =>
      obtain ⟨base, variation⟩ := bv
      dsimp only
      refine valuesP_dictUpd _ st.1 base [] _ h ?_ ?_
      · intro v hv
        exact guardedAppend_nodup variation v hv
      · exact guardedAppend_nodup variation [] List.nodup_nil

theorem valuesNodup_crossFold :
    ∀ (items : List String) (st : List (String × List String) × List String),
      (∀ p ∈ st.1, p.2.Nodup) → ∀ p ∈ (items.foldl crossStep st).1, p.2.Nodup
  | [], _, h => h
  | item :: items, st, h =>
    valuesNodup_crossFold items (crossStep st item) (valuesNodup_crossStep st h item)

theorem valuesNodup_category_dict_aux :
    ∀ (gs : List ((String × Option String) × GroupData))
      (cd : List (String × List String)), (∀ p ∈ cd, p.2.Nodup) →
      ∀ p ∈ gs.foldl
        (fun cd kg =>
          pyDictInsert cd
            (match kg.1.2 with
              | some s => kg.1.1 ++ " (" ++ s ++ ")"
              | none => kg.2.base.getD kg.1.1)
            (sortedDedup (kg.2.variations.foldl
              (fun vs v => vs ++ variationLabels kg.1.2 v) []))) cd, p.2.Nodup
  | [], _, h => h
  | kg :: gs, cd, h => by
    refine valuesNodup_category_dict_aux gs _ ?_
    exact valuesP_pyDictInsert _ cd _ _ h (nodup_sortedDedup _)

theorem valuesNodup_category_dict (items : List String) :
    ∀ p ∈ category_dict items, p.2.Nodup := by
  unfold category_dict
  exact valuesNodup_category_dict_aux (base_groups items) [] (by simp)

theorem buildCategory_canonical (items : List String) :
    List.Pairwise (fun a b => strLe a.1 b.1 = true) (buildCategory items) ∧
      ∀ q ∈ buildCategory items,
        List.Pairwise (fun x y => strLe x y = true) q.2 ∧ q.2.Nodup := by
  have hvals : ∀ p ∈ (items.foldl crossStep
      (category_dict items, (category_dict items).map (·.1))).1, p.2.Nodup :=
    valuesNodup_crossFold items _ (valuesNodup_category_dict items)
  have hkeytot : ∀ a b : String × List String,
      (strLe a.1 b.1 = true) ∨ (strLe b.1 a.1 = true) := fun a b => strLe_total a.1 b.1
  have hkeytrans : ∀ a b c : String × List String,
      strLe a.1 b.1 = true → strLe b.1 c.1 = true → strLe a.1 c.1 = true :=
    fun a b c => strLe_trans a.1 b.1 c.1
  constructor
  · exact pairwise_sortBy _ hkeytot hkeytrans _
  · intro q hq
    have hq' : q ∈ (items.foldl crossStep
        (category_dict items, (category_dict items).map (·.1))).1.map
          (fun p => (p.1, pySorted p.2)) :=
      (perm_sortBy _ _).mem_iff.mp hq
    obtain ⟨p, hp, rfl⟩ := List.mem_map.mp hq'
    exact ⟨pairwise_sortBy strLe strLe_total strLe_trans p.2,
      nodup_pySorted p.2 (hvals p hp)⟩

theorem keys_dictUpd [BEq κ] [LawfulBEq κ] (m : List (κ × α)) (k : κ) (d : α)
    (f : α → α) :
    (dictUpd m k d f).map (·.1) =
      if m.any (fun p => p.1 == k) then m.map (·.1) else m.map (·.1) ++ [k] := by
  unfold dictUpd
  split_ifs with h
  · rw [List.map_map]
    refine List.map_congr_left (fun p _ => ?_)
    by_cases hpk : (p.1 == k) = true
    · simp only [Function.comp_apply, hpk, if_true]
      exact (eq_of_beq hpk).symm
    · simp [Function.comp_apply, hpk]
  · simp

theorem any_fst_eq_contains (m : List (String × α)) (k : String) :
    m.any (fun p => p.1 == k) = (m.map (·.1)).contains k := by
  induction m with
  | nil => rfl
  | cons p ps ih =>
    simp only [List.any_cons, List.map_cons]
    have hcons : ((p.1 :: ps.map (·.1)).contains k) = ((k == p.1) || (ps.map (·.1)).contains k) := rfl
    rw [hcons, ← ih]
    by_cases h : p.1 = k
    · simp [h]
    · have h1 : (p.1 == k) = false := beq_eq_false_iff_ne.mpr h
      have h2 : (k == p.1) = false := beq_eq_false_iff_ne.mpr (fun hc => h hc.symm)
      rw [h1, h2]

theorem keys_menu_fold :
    ∀ (rows : List (String × String)) (m : List (String × List String))
      (acc : List String), m.map (·.1) = acc →
      (rows.foldl (fun m r => dictUpd m r.1 [] (fun l => l ++ [r.2])) m).map (·.1) =
        rows.foldl (fun acc r => if acc.contains r.1 then acc else acc ++ [r.1]) acc
  | [], m, acc, h => h
  | r :: rows, m, acc, h => by
    simp only [List.foldl_cons]
    refine keys_menu_fold rows _ _ ?_
    rw [keys_dictUpd, any_fst_eq_contains, h]

/-- C5 (amended): the hierarchy builder's output is canonical within each
category — base-name keys lexicographically sorted, every variation list
lexicographically sorted and duplicate-free — while the category keys of
the output mapping appear in order of first occurrence in the input (not
lexicographically sorted). -/
theorem buildHierarchy_canonical (rows : List (String × String)) :
    ((buildHierarchy rows).map (·.1) = pyDedupStr (rows.map (·.1))) ∧
      ∀ p ∈ buildHierarchy rows,
        List.Pairwise (fun a b => strLe a.1 b.1 = true) p.2 ∧
          ∀ q ∈ p.2, List.Pairwise (fun x y => strLe x y = true) q.2 ∧ q.2.Nodup := by
  constructor
  · unfold buildHierarchy
    rw [List.map_map]
    have hcomp : ((fun p : String × List (String × List String) => p.1) ∘
        (fun p : String × List String => (p.1, buildCategory p.2))) =
        (fun p : String × List String => p.1) := rfl
    rw [hcomp, keys_menu_fold rows [] [] rfl]
    unfold pyDedupStr
    rw [List.foldl_map]
  · intro p hp
    unfold buildHierarchy at hp
    obtain ⟨r, hr, rfl⟩ := List.mem_map.mp hp
    exact ⟨(buildCategory_canonical r.2).1, (buildCategory_canonical r.2).2⟩

/-- Witness for C5 (amended): the first category of a concrete two-row
input satisfies the per-category canonical form. -/
theorem buildHierarchy_canonical_witness :
    List.Pairwise (fun a b => strLe a.1 b.1 = true)
        (("B", [("x", [])]) : String × List (String × List String)).2 ∧
      ∀ q ∈ (("B", [("x", [])]) : String × List (String × List String)).2,
        List.Pairwise (fun x y => strLe x y = true) q.2 ∧ q.2.Nodup :=
  (buildHierarchy_canonical [("B", "x"), ("A", "y")]).2 ("B", [("x", [])]) (by decide)

/-- C5 counterexample: an input whose categories first occur in the order
"B", "A" produces output category keys ["B", "A"], which is not
lexicographically sorted ("A" sorts before "B"). -/
theorem buildHierarchy_category_order_counterexample :
    (buildHierarchy [("B", "x"), ("A", "y")]).map (·.1) = ["B", "A"] ∧
      strLt "A" "B" = true := by
  decide
